import Mathlib

/-!
Verification of the alias / mutation core of `flowistry`
(`crates/flowistry/src/mir/aliases.rs` and
`crates/flowistry/src/infoflow/mutation.rs`) against its natural-language
specification.

The embedding is shallow: places, region ids and MIR types are concrete
inductive data; the per-function maps (`subset`, `contains`, `definite`,
`loans`) become association lists or functions; type lookups that panic in
the compiler (`Place::ty` on an ill-typed place) return `none`.  External
utilities that are not part of this repository (`PlaceExt::is_direct`,
`PlaceExt::normalize`, SCC decomposition from `rustc_data_structures`) are
parameters of the embedded operations, or are modelled from the spec where a
concrete instance is needed.
-/

namespace Flowistry

/-- A borrow-checker region id (`RegionVid`).  In the borrow-checked MIR body
all regions are numbered variables; the static region is number `0`. -/
abbrev Region := Nat

/-- MIR types, restricted to the vocabulary the alias analysis inspects:
the unit type, opaque base types, nominal ADTs (struct field lists are kept
in a separate environment, mirroring `tcx.adt_def`), references carrying a
region and mutability, and non-reference (raw) pointers. -/
inductive Ty where
  | unit
  | base (n : Nat)
  | adt (name : Nat)
  | ref (r : Region) (pointee : Ty) (mutbl : Bool)
  | raw (pointee : Ty)
deriving DecidableEq, Repr

/-- A place-projection element: a dereference, or a field selection which
(as in MIR's `ProjectionElem::Field`) records the field's type. -/
inductive PlaceElem where
  | deref
  | field (idx : Nat) (ty : Ty)
deriving DecidableEq, Repr

/-- A MIR place: a base local plus a projection path.  Two places are equal
iff base and full projection path match exactly. -/
structure Place where
  base : Nat
  projection : List PlaceElem
deriving DecidableEq, Repr

/-- One projection step of `PlaceTy::projection_ty`: a deref peels a
reference or raw pointer; a field projection yields the type recorded in the
element (as rustc does). -/
def tyElem : Ty → PlaceElem → Option Ty
  | Ty.ref _ t _, PlaceElem.deref => some t
  | Ty.raw t, PlaceElem.deref => some t
  | _, PlaceElem.deref => none
  | _, PlaceElem.field _ fty => some fty

/-- Fold `tyElem` down a projection path. -/
def tyOfProj (t : Ty) : List PlaceElem → Option Ty
  | [] => some t
  | e :: rest =>
    match tyElem t e with
    | some t2 => tyOfProj t2 rest
    | none => none

/-- `Place::ty`: the type of a place given the body's local declarations.
`none` models the compiler panic on an ill-typed place. -/
def tyOf (decls : Nat → Option Ty) (p : Place) : Option Ty :=
  match decls p.base with
  | some t => tyOfProj t p.projection
  | none => none

/-- `Place::make(p.local, p.projection ++ proj)`: extend a place's
projection path. -/
def extendPlace (p : Place) (proj : List PlaceElem) : Place :=
  ⟨p.base, p.projection ++ proj⟩

/-- `tcx.mk_place_deref`: append one dereference. -/
def derefPlace (p : Place) : Place :=
  extendPlace p [PlaceElem.deref]

/-- `Place::project_deeper(&[Field(i, ty)])`: append one field projection. -/
def projectField (p : Place) (i : Nat) (ty : Ty) : Place :=
  extendPlace p [PlaceElem.field i ty]

/-- `PlaceExt::refs_in_projection`: for every deref element in the
projection, the pair of (pointer place before the deref, suffix projection
after the deref). -/
def refsInProjection (p : Place) : List (Place × List PlaceElem) :=
  (List.range p.projection.length).filterMap (fun i =>
    match p.projection.get? i with
    | some PlaceElem.deref =>
      some (⟨p.base, p.projection.take i⟩, p.projection.drop (i + 1))
    | _ => none)

/-! ## Conservative same-type widening (`generate_conservative_constraints`) -/

/-- `same_ty` in `generate_conservative_constraints`: the types of the
dereferences of the two pointer places coincide. -/
def sameTy (decls : Nat → Option Ty) (p1 p2 : Place) : Bool :=
  decide (tyOf decls (derefPlace p1) = tyOf decls (derefPlace p2))

/-- `generate_conservative_constraints`: for every pair of distinct regions
whose pointer lists share a pointee type, emit subset edges in both
directions.  The `HashMap` input is an association list. -/
def generateConservativeConstraints (decls : Nat → Option Ty)
    (regionToPointers : List (Region × List (Place × Bool))) :
    List (Region × Region) :=
  regionToPointers.flatMap (fun rp =>
    (regionToPointers.filter (fun rp2 =>
      decide (rp.1 ≠ rp2.1) &&
        rp.2.any (fun pm => rp2.2.any (fun pm2 => sameTy decls pm.1 pm2.1)))).flatMap
      (fun rp2 => [(rp.1, rp2.1), (rp2.1, rp.1)]))

/-! ## MIR rvalues, bodies, and the borrow gathering pass -/

/-- A MIR operand: a copy or move of a place, or a constant. -/
inductive Operand where
  | copy (p : Place)
  | move (p : Place)
  | const
deriving DecidableEq, Repr

/-- `Operand::as_place`: the place read by the operand, if any. -/
def Operand.asPlace : Operand → Option Place
  | Operand.copy p => some p
  | Operand.move p => some p
  | Operand.const => none

/-- `AggregateKind`, restricted to what `visit_assign` distinguishes.  For
an ADT the variant's field types (looked up through `tcx.adt_def` in the
source) are carried directly; likewise for a tuple the component types
(read off the rvalue's type in the source). -/
inductive AggKind where
  | adt (fieldTys : List Ty)
  | tuple (fieldTys : List Ty)
  | other
deriving DecidableEq, Repr

/-- MIR rvalues, restricted to the shapes the analysis distinguishes:
`Use`, `Ref` (a borrow, with region and mutability), `Aggregate`, and a
catch-all carrying its operands. -/
inductive Rvalue where
  | use (op : Operand)
  | ref (r : Region) (mutbl : Bool) (p : Place)
  | aggregate (kind : AggKind) (ops : List Operand)
  | other (ops : List Operand)
deriving DecidableEq, Repr

/-- `PlaceCollector` applied to an rvalue: every place read by it. -/
def Rvalue.readPlaces : Rvalue → List Place
  | Rvalue.use op => op.asPlace.toList
  | Rvalue.ref _ _ p => [p]
  | Rvalue.aggregate _ ops => ops.filterMap Operand.asPlace
  | Rvalue.other ops => ops.filterMap Operand.asPlace

/-- The regions syntactically occurring in a type. -/
def regionsInTy : Ty → List Region
  | Ty.unit => []
  | Ty.base _ => []
  | Ty.adt _ => []
  | Ty.ref r t _ => r :: regionsInTy t
  | Ty.raw t => regionsInTy t

/-- A function body, reduced to the pieces the alias analysis reads: local
declarations (index = local number) and the assignment statements. -/
structure Body where
  localDecls : List Ty
  stmts : List (Place × Rvalue)
deriving DecidableEq, Repr

/-- `body.local_decls()` as a lookup function. -/
def Body.decls (b : Body) : Nat → Option Ty := fun n => b.localDecls.get? n

/-- The set of all regions appearing in the body (through the types of its
locals). -/
def Body.regions (b : Body) : List Region :=
  b.localDecls.flatMap regionsInTy

/-! ## Region subset graph (`compute_loans`, constraint construction) -/

/-- `all_regions` in `compute_loans`: the regions appearing in the borrow
checker's `subset_base` facts (each fact is `(region, region, location)`). -/
def allRegions (subsetBase : List (Region × Region × Nat)) : List Region :=
  subsetBase.flatMap (fun f => [f.1, f.2.1])

/-- The edge set of the region subset graph built by `compute_loans`: the
pairwise `subset_base` facts, an edge `(static, r)` (`static` is region 0)
for every region occurring in those facts, and — in conservative pointer
mode — the widening constraints. -/
def buildSubset (subsetBase : List (Region × Region × Nat))
    (conservative : List (Region × Region)) : List (Region × Region) :=
  subsetBase.map (fun f => (f.1, f.2.1))
    ++ (allRegions subsetBase).map (fun r => (0, r))
    ++ conservative

/-! ## Loan collection and `contains` seeding (`compute_loans`) -/

/-- The borrow recognized by `GatherBorrows::visit_assign`, if any:
a `Rvalue::Ref(region, kind, place)` right-hand side. -/
def borrowOf : Rvalue → Option (Region × Bool × Place)
  | Rvalue.ref r m p => some (r, m, p)
  | _ => none

/-- `GatherBorrows`: all borrows occurring in the body's assignments. -/
def gatherBorrows (stmts : List (Place × Rvalue)) : List (Region × Bool × Place) :=
  stmts.filterMap (fun s => borrowOf s.2)

/-- The seed contributed by one argument to `contains(r)`: `*arg` when the
argument's type is a reference with region `r`. -/
def argSeed (decls : Nat → Option Ty) (r : Region) (arg : Place) : Option Place :=
  match tyOf decls arg with
  | some (Ty.ref r2 _ _) => if r2 = r then some (derefPlace arg) else none
  | _ => none

/-- The seeding phase of `compute_loans`: `contains(r)` starts with the
borrowed place of every borrow expression with region `r`, plus `*arg` for
every argument whose (reference) type carries region `r`. -/
def seedContains (decls : Nat → Option Ty) (stmts : List (Place × Rvalue))
    (args : List Place) (r : Region) : List Place :=
  (gatherBorrows stmts).filterMap (fun b => if b.1 = r then some b.2.2 else none)
    ++ args.filterMap (argSeed decls r)

/-! ## The alias query (`Aliases::aliases`) -/

/-- The per-loan step of `Aliases::aliases`: if the loan's type equals the
dereferenced pointer's pointee type, append the suffix projection to the
loan, otherwise keep the loan verbatim.  `none` models the compiler panic
on an ill-typed loan place. -/
def loanAlias (decls : Nat → Option Ty) (origTy : Ty) (after : List PlaceElem)
    (loan : Place) : Option Place :=
  match tyOf decls loan with
  | some lt => some (if lt = origTy then extendPlace loan after else loan)
  | none => none

/-- `loanAlias` mapped over a loan set. -/
def loanAliases (decls : Nat → Option Ty) (origTy : Ty) (after : List PlaceElem) :
    List Place → Option (List Place)
  | [] => some []
  | loan :: rest =>
    match loanAlias decls origTy after loan, loanAliases decls origTy after rest with
    | some q, some qs => some (q :: qs)
    | _, _ => none

/-- The computation inside `Aliases::aliases` (the closure passed to the
cache): `isDirect` is the external `PlaceExt::is_direct` predicate; `loans`
is the `contains` map computed by `compute_loans` (absent regions mapped to
`[]`).  `none` models the compiler panics (`unwrap` on a place without a
deref, type lookup on an ill-typed place). -/
def aliasesCompute (isDirect : Place → Bool) (decls : Nat → Option Ty)
    (loans : Region → List Place) (place : Place) : Option (List Place) :=
  if isDirect place then some [place]
  else
    match (refsInProjection place).getLast? with
    | none => none
    | some (ptr, after) =>
      match tyOf decls ptr with
      | some (Ty.ref region origTy _) =>
        (loanAliases decls origTy after (loans region)).map (fun qs => place :: qs)
      | some _ => some [place]
      | none => none

/-- The memoized `aliases` query: the cache is an association list keyed by
the normalized place; on a miss the alias set is computed for the original
(unnormalized) place and stored under the normalized key.  `normalize` is
the external `PlaceExt::normalize` utility. -/
def aliasesCached (normalize : Place → Place) (isDirect : Place → Bool)
    (decls : Nat → Option Ty) (loans : Region → List Place)
    (cache : List (Place × List Place)) (place : Place) :
    List (Place × List Place) × Option (List Place) :=
  match cache.lookup (normalize place) with
  | some res => (cache, some res)
  | none =>
    match aliasesCompute isDirect decls loans place with
    | some res => ((normalize place, res) :: cache, some res)
    | none => (cache, none)

/-- Erase region annotations inside a type (rustc's `erase_regions`,
represented by renaming every region to `0`). -/
def Ty.eraseRegions : Ty → Ty
  | Ty.unit => Ty.unit
  | Ty.base n => Ty.base n
  | Ty.adt n => Ty.adt n
  | Ty.ref _ t m => Ty.ref 0 (Ty.eraseRegions t) m
  | Ty.raw t => Ty.raw (Ty.eraseRegions t)

/-- Modelled from the spec: `normalize(place)` is the external
`PlaceExt::normalize` utility, which is not part of this repository; per
the spec it "canonicalizes a place for cache-key purposes (strips
irrelevant distinctions that don't affect identity for lookup)".  The
distinction stripped here is the region annotation inside field-projection
types, which rustc's renumbering makes differ between otherwise identical
places. -/
def normalizeModel (p : Place) : Place :=
  ⟨p.base, p.projection.map (fun e =>
    match e with
    | PlaceElem.deref => PlaceElem.deref
    | PlaceElem.field i t => PlaceElem.field i t.eraseRegions)⟩

/-! ## The modular mutation visitor (`infoflow/mutation.rs`) -/

/-- Indicator of certainty about whether a place is being mutated. -/
inductive MutationStatus where
  | definitely
  | possibly
deriving DecidableEq, Repr

/-- Information about a particular mutation. -/
structure Mutation where
  mutated : Place
  inputs : List Place
  status : MutationStatus
deriving DecidableEq, Repr

/-- The field types `visit_assign` derives for an aggregate kind: the
variant's field types for an ADT, the tuple field types for a tuple,
`none` otherwise. -/
def aggFieldTys : AggKind → Option (List Ty)
  | AggKind.adt tys => some tys
  | AggKind.tuple tys => some tys
  | AggKind.other => none

/-- The fallthrough case of `visit_assign`: one `Definitely` record for
the whole destination, with inputs every place read by the rvalue. -/
def coarseAssign (mutated : Place) (rv : Rvalue) : List Mutation :=
  [{ mutated := mutated, inputs := rv.readPlaces, status := MutationStatus.definitely }]

/-- `ModularMutationVisitor::visit_assign`: aggregate construction and
whole-struct copies are destructured into per-field `Definitely` records;
everything else produces one coarse `Definitely` record.  `structFields`
models `tcx.adt_def(..).all_fields()` for struct ADTs (`none` for
non-struct ADTs). -/
def visitAssign (structFields : Nat → Option (List Ty)) (decls : Nat → Option Ty)
    (mutated : Place) (rv : Rvalue) : List Mutation :=
  match rv with
  | Rvalue.aggregate kind ops =>
    match aggFieldTys kind with
    | some tys =>
      if 0 < tys.length then
        (tys.enum.zip ops).map (fun x =>
          { mutated := projectField mutated x.1.1 x.1.2,
            inputs := x.2.asPlace.toList,
            status := MutationStatus.definitely })
      else coarseAssign mutated rv
    | none => coarseAssign mutated rv
  | Rvalue.use (Operand.move pl) | Rvalue.use (Operand.copy pl) =>
    match tyOf decls pl with
    | some (Ty.adt name) =>
      match structFields name with
      | some ftys =>
        ftys.enum.map (fun ft =>
          { mutated := projectField mutated ft.1 ft.2,
            inputs := [projectField pl ft.1 ft.2],
            status := MutationStatus.definitely })
      | none => coarseAssign mutated rv
    | _ => coarseAssign mutated rv
  | _ => coarseAssign mutated rv

/-- The argument places of a call after the `AsyncHack::ignore_place`
filter (`ignore` models that external filter). -/
def filteredArgs (ignore : Place → Bool) (args : List Place) : List Place :=
  args.filter (fun p => !ignore p)

/-- The `Possibly` records of `visit_terminator` on a call: for every
argument place, one record per alias-reachable mutable place other than
the argument itself, with inputs all argument places.  `reachableMut`
models `Aliases::reachable_values` at mutable depth. -/
def possiblyMutations (reachableMut : Place → List Place)
    (argPlaces : List Place) : List Mutation :=
  argPlaces.flatMap (fun arg =>
    ((reachableMut arg).filter (fun am => decide (am ≠ arg))).map (fun am =>
      { mutated := am, inputs := argPlaces, status := MutationStatus.possibly }))

/-- `ModularMutationVisitor::visit_terminator` on a `Call` terminator: one
`Definitely` record for the destination (inputs all argument places unless
the destination type is unit), then the `Possibly` records. -/
def visitCallTerminator (decls : Nat → Option Ty) (ignore : Place → Bool)
    (reachableMut : Place → List Place) (args : List Place)
    (destination : Place) : List Mutation :=
  { mutated := destination,
    inputs := if tyOf decls destination = some Ty.unit then []
              else filteredArgs ignore args,
    status := MutationStatus.definitely }
    :: possiblyMutations reachableMut (filteredArgs ignore args)

/-! ## The contains-fixpoint (`compute_loans`, propagation) -/

/-- The `contains` map under construction: per region, the places inserted
so far (a `HashSet` per region in the source; list membership models set
membership). -/
abbrev Contains := Region → List Place

/-- `HashSet::insert`: add the place if new, reporting whether it was. -/
def insertNew (l : List Place) (p : Place) : List Place × Bool :=
  if p ∈ l then (l, false) else (l ++ [p], true)

/-- Point update of the `contains` map. -/
def updateC (c : Contains) (b : Region) (l : List Place) : Contains :=
  fun r => if r = b then l else c r

/-- The transformation applied when propagating a place `p` across a subset
edge `a ⊆ b`: if a definite record `(ty, proj)` exists for `b`, the edge is
not cyclic (`¬ subset(b, a)`), and the record's type equals `p`'s static
type, extend `p` by `proj`; otherwise keep `p` unchanged. -/
def transform (subset : Region → Region → Bool)
    (definite : Region → Option (Ty × List PlaceElem))
    (decls : Nat → Option Ty) (a b : Region) (p : Place) : Place :=
  match definite b with
  | some (ty, proj) =>
    if subset b a = false ∧ tyOf decls p = some ty then extendPlace p proj else p
  | none => p

/-- Insert the transforms of all places in `snapshot` into the list `l`,
accumulating the changed flag. -/
def insertAll (subset : Region → Region → Bool)
    (definite : Region → Option (Ty × List PlaceElem))
    (decls : Nat → Option Ty) (a b : Region) :
    List Place → List Place → Bool → List Place × Bool
  | [], l, ch => (l, ch)
  | p :: rest, l, ch =>
    insertAll subset definite decls a b rest
      (insertNew l (transform subset definite decls a b p)).1
      (ch || (insertNew l (transform subset definite decls a b p)).2)

/-- Process one subset edge `a ⊆ b`: insert the transform of every place
currently in `contains(a)` into `contains(b)`. -/
def edgeStep (subset : Region → Region → Bool)
    (definite : Region → Option (Ty × List PlaceElem))
    (decls : Nat → Option Ty) (c : Contains) (ch : Bool) (a b : Region) :
    Contains × Bool :=
  (updateC c b (insertAll subset definite decls a b (c a) (c b) false).1,
   ch || (insertAll subset definite decls a b (c a) (c b) false).2)

/-- Process all subset successors of region `a`. -/
def edgesPass (subset : Region → Region → Bool)
    (definite : Region → Option (Ty × List PlaceElem))
    (decls : Nat → Option Ty) (a : Region) :
    List Region → Contains × Bool → Contains × Bool
  | [], acc => acc
  | b :: rest, acc =>
    edgesPass subset definite decls a rest
      (edgeStep subset definite decls acc.1 acc.2 a b)

/-- One pass of the inner loop of `compute_loans` over an SCC's regions:
for every region `a` of the SCC and every subset successor `b` of `a`,
process the edge `a ⊆ b`. -/
def sccPass (subset : Region → Region → Bool)
    (definite : Region → Option (Ty × List PlaceElem))
    (decls : Nat → Option Ty) (succs : Region → List Region) :
    List Region → Contains × Bool → Contains × Bool
  | [], acc => acc
  | a :: rest, acc =>
    sccPass subset definite decls succs rest
      (edgesPass subset definite decls a (succs a) acc)

/-- The per-SCC fixpoint loop of `compute_loans`: repeat `sccPass` until a
pass changes nothing.  `fuel` bounds the iteration; `none` models
non-termination within the given fuel. -/
def sccFix (subset : Region → Region → Bool)
    (definite : Region → Option (Ty × List PlaceElem))
    (decls : Nat → Option Ty) (succs : Region → List Region)
    (sccRegions : List Region) : Nat → Contains → Option Contains
  | 0, _ => none
  | fuel + 1, c =>
    match sccPass subset definite decls succs sccRegions (c, false) with
    | (c2, true) => sccFix subset definite decls succs sccRegions fuel c2
    | (c2, false) => some c2

/-- The outer loop of `compute_loans`: the per-SCC fixpoint run for each
SCC in topological (reverse-post) order. -/
def processSccs (subset : Region → Region → Bool)
    (definite : Region → Option (Ty × List PlaceElem))
    (decls : Nat → Option Ty) (succs : Region → List Region) (fuel : Nat) :
    List (List Region) → Contains → Option Contains
  | [], c => some c
  | scc :: rest, c =>
    match sccFix subset definite decls succs scc fuel c with
    | some c2 => processSccs subset definite decls succs fuel rest c2
    | none => none

/-! ## Concrete instances used by witnesses and counterexamples -/

/-- Concrete local declarations: locals 1 and 2 are mutable references to
unit (with region 0), local 3 has unit type, locals 4 and 6 have base
types, local 5 has base type 0. -/
def declsEx : Nat → Option Ty := fun n =>
  if n = 1 then some (Ty.ref 0 Ty.unit true)
  else if n = 2 then some (Ty.ref 0 Ty.unit true)
  else if n = 3 then some Ty.unit
  else if n = 4 then some (Ty.base 0)
  else if n = 5 then some (Ty.base 0)
  else if n = 6 then some Ty.unit
  else if n = 7 then some (Ty.raw (Ty.base 0))
  else none

/-- A body with one local of reference type carrying region 1. -/
def bodyEx : Body := ⟨[Ty.ref 1 Ty.unit true], []⟩

/-- Two concrete places that differ only in the region annotation inside a
field projection's type: exactly the distinction `normalizeModel` strips,
so they normalize identically while being unequal places. -/
def cexP1 : Place := ⟨1, [PlaceElem.field 0 (Ty.ref 1 (Ty.base 0) true)]⟩

/-- See `cexP1`. -/
def cexP2 : Place := ⟨1, [PlaceElem.field 0 (Ty.ref 2 (Ty.base 0) true)]⟩

/-- An `is_direct` instance valid for the deref-free places `cexP1` and
`cexP2`: places with no dereference in their projection are direct. -/
def cexDirect : Place → Bool := fun _ => true

/-- An empty loan map. -/
def cexLoans : Region → List Place := fun _ => []

/-- `is_direct` for witness purposes: a place is direct iff its projection
contains no dereference. -/
def isDirectEx : Place → Bool := fun p => decide (PlaceElem.deref ∉ p.projection)

/-- A loan map with one loan of unit type under region 0. -/
def loansEx : Region → List Place := fun r => if r = 0 then [⟨6, []⟩] else []

/-- A one-edge subset relation: region 1 ⊆ region 2. -/
def subsetEx : Region → Region → Bool := fun a b => decide (a = 1 ∧ b = 2)

/-- A definite record for region 2: pointee type `base 0`, projection one
field step. -/
def definiteEx : Region → Option (Ty × List PlaceElem) := fun r =>
  if r = 2 then some (Ty.base 0, [PlaceElem.field 0 (Ty.base 1)]) else none

/-- Successor lists of `subsetEx`. -/
def succsEx : Region → List Region := fun a => if a = 1 then [2] else []

/-- An initial contains map: region 1 holds the place `local 5`. -/
def c0Ex : Contains := fun r => if r = 1 then [⟨5, []⟩] else []

/-- C10: the conservative widening constraint generator never emits a
self-edge, and whenever it emits `(a, b)` it also emits `(b, a)`. -/
theorem conservative_constraints_irrefl_symm
    (decls : Nat → Option Ty) (rtp : List (Region × List (Place × Bool)))
    (a b : Region)
    (h : (a, b) ∈ generateConservativeConstraints decls rtp) :
    a ≠ b ∧ (b, a) ∈ generateConservativeConstraints decls rtp := by
  simp only [generateConservativeConstraints, List.mem_flatMap, List.mem_cons,
    List.not_mem_nil, or_false, Prod.mk.injEq] at h ⊢
  obtain ⟨rp, hrp, rp2, hrp2, hpair⟩ := h
  have hne : rp.1 ≠ rp2.1 := by
    have := (List.mem_filter.mp hrp2).2
    simp only [Bool.and_eq_true, decide_eq_true_eq] at this
    exact this.1
  rcases hpair with ⟨rfl, rfl⟩ | ⟨rfl, rfl⟩
  · exact ⟨hne, rp, hrp, rp2, hrp2, Or.inr ⟨rfl, rfl⟩⟩
  · exact ⟨hne.symm, rp, hrp, rp2, hrp2, Or.inl ⟨rfl, rfl⟩⟩

/-- Witness for C10 at a concrete two-region pointer map. -/
theorem conservative_constraints_irrefl_symm_witness :
    (1, 2) ∈ generateConservativeConstraints declsEx
      [(1, [(⟨1, []⟩, true)]), (2, [(⟨2, []⟩, true)])] ∧
    1 ≠ 2 ∧
    (2, 1) ∈ generateConservativeConstraints declsEx
      [(1, [(⟨1, []⟩, true)]), (2, [(⟨2, []⟩, true)])] :=
  ⟨by decide, conservative_constraints_irrefl_symm declsEx _ 1 2 (by decide)⟩

/-- C5 (amended): the subset graph contains every pairwise `subset_base`
fact, and an edge `(static, r)` — `static` is region 0 — for every region
`r` occurring in the `subset_base` facts. -/
theorem subset_graph_static_edges (subsetBase : List (Region × Region × Nat))
    (conservative : List (Region × Region)) :
    (∀ f ∈ subsetBase, (f.1, f.2.1) ∈ buildSubset subsetBase conservative) ∧
    (∀ r ∈ allRegions subsetBase, (0, r) ∈ buildSubset subsetBase conservative) := by
  constructor
  · intro f hf
    simp only [buildSubset, List.mem_append]
    exact Or.inl (Or.inl (List.mem_map_of_mem _ hf))
  · intro r hr
    simp only [buildSubset, List.mem_append]
    exact Or.inl (Or.inr (List.mem_map_of_mem _ hr))

/-- C5 counterexample: region 1 appears in a body (through the type of a
local), yet with no `subset_base` facts the built subset graph is empty,
so it has no edge `(static, 1)`: the graph does not contain an edge
`(static, r)` for every region `r` appearing in the body, only for regions
appearing in the subset facts. -/
theorem subset_graph_static_edges_cex :
    1 ∈ bodyEx.regions ∧ (0, 1) ∉ buildSubset [] [] := by decide

/-- Witness for C5 (amended) on a single concrete subset fact. -/
theorem subset_graph_static_edges_witness :
    (2, 5) ∈ buildSubset [(2, 5, 0)] [] ∧ (0, 5) ∈ buildSubset [(2, 5, 0)] [] :=
  ⟨(subset_graph_static_edges [(2, 5, 0)] []).1 (2, 5, 0) (by decide),
   (subset_graph_static_edges [(2, 5, 0)] []).2 5 (by decide)⟩

/-- `borrowOf` recognizes exactly the `Rvalue::Ref` right-hand sides. -/
theorem borrowOf_eq_some (rv : Rvalue) (r : Region) (m : Bool) (p : Place) :
    borrowOf rv = some (r, m, p) ↔ rv = Rvalue.ref r m p := by
  cases rv <;> simp [borrowOf]

/-- `argSeed` succeeds exactly on arguments of reference type with the
matching region, producing the argument's dereference. -/
theorem argSeed_eq_some (decls : Nat → Option Ty) (r : Region) (arg p : Place) :
    argSeed decls r arg = some p ↔
      ((∃ t m, tyOf decls arg = some (Ty.ref r t m)) ∧ p = derefPlace arg) := by
  cases h : tyOf decls arg with
  | none => simp [argSeed, h]
  | some t =>
    cases t with
    | ref r2 t2 m2 =>
      by_cases hr : r2 = r
      · subst hr
        simp [argSeed, h, eq_comm]
      · simp [argSeed, h, hr]
    | unit => simp [argSeed, h]
    | base n => simp [argSeed, h]
    | adt n => simp [argSeed, h]
    | raw t2 => simp [argSeed, h]

/-- C6: a place is seeded into `contains(r)` iff it is the borrowed place
of a borrow expression with region `r` occurring in the body's
assignments, or the dereference `*arg` of an argument of reference type
whose region is `r`; no other place is seeded. -/
theorem seed_contains_exactly (decls : Nat → Option Ty)
    (stmts : List (Place × Rvalue)) (args : List Place) (r : Region) (p : Place) :
    p ∈ seedContains decls stmts args r ↔
      ((∃ dst kind, (dst, Rvalue.ref r kind p) ∈ stmts) ∨
       (∃ arg ∈ args, (∃ t m, tyOf decls arg = some (Ty.ref r t m)) ∧
         p = derefPlace arg)) := by
  simp only [seedContains, List.mem_append, List.mem_filterMap, gatherBorrows]
  constructor
  · rintro (⟨b, ⟨s, hs, hb⟩, hif⟩ | ⟨arg, harg, hseed⟩)
    · left
      obtain ⟨br, bm, bp⟩ := b
      by_cases hbr : br = r
      · subst hbr
        rw [if_pos rfl] at hif
        rw [Option.some.injEq] at hif
        subst hif
        rw [borrowOf_eq_some] at hb
        exact ⟨s.1, bm, by rwa [← hb, Prod.mk.eta]⟩
      · simp [hbr] at hif
    · right
      exact ⟨arg, harg, (argSeed_eq_some decls r arg p).mp hseed⟩
  · rintro (⟨dst, kind, hmem⟩ | ⟨arg, harg, hcond⟩)
    · left
      exact ⟨(r, kind, p), ⟨(dst, Rvalue.ref r kind p), hmem,
        (borrowOf_eq_some _ r kind p).mpr rfl⟩, by simp⟩
    · right
      exact ⟨arg, harg, (argSeed_eq_some decls r arg p).mpr hcond⟩

/-- `loanAliases` succeeds on a well-typed loan list, and its result holds
exactly the per-loan transforms. -/
theorem loanAliases_characterization (decls : Nat → Option Ty) (origTy : Ty)
    (after : List PlaceElem) (l : List Place)
    (hwt : ∀ loan ∈ l, (tyOf decls loan).isSome = true) :
    ∃ qs, loanAliases decls origTy after l = some qs ∧
      ∀ q, q ∈ qs ↔ ∃ loan ∈ l, ∃ lt, tyOf decls loan = some lt ∧
        q = (if lt = origTy then extendPlace loan after else loan) := by
  induction l with
  | nil => exact ⟨[], rfl, by simp⟩
  | cons loan rest ih =>
    obtain ⟨lt, hlt⟩ :=
      Option.isSome_iff_exists.mp (hwt loan (List.mem_cons_self _ _))
    obtain ⟨qs, hqs, hchar⟩ := ih (fun x hx => hwt x (List.mem_cons_of_mem _ hx))
    refine ⟨(if lt = origTy then extendPlace loan after else loan) :: qs, ?_, ?_⟩
    · simp [loanAliases, loanAlias, hlt, hqs]
    · intro q
      simp only [List.mem_cons, hchar]
      constructor
      · rintro (rfl | ⟨loan2, hl2, hres⟩)
        · exact ⟨loan, Or.inl rfl, lt, hlt, rfl⟩
        · exact ⟨loan2, Or.inr hl2, hres⟩
      · rintro ⟨loan2, hl2, lt2, hlt2, rfl⟩
        rcases hl2 with rfl | hl2
        · left
          rw [hlt] at hlt2
          injection hlt2 with h2
          rw [h2]
        · right
          exact ⟨loan2, hl2, lt2, hlt2, rfl⟩

/-- C2: for a place containing a dereference of a non-argument pointer,
with `ptr` the last dereferenced pointer — of reference type with region
`region` and pointee type `origTy` — and `after` the remaining suffix
projection, the alias query succeeds and returns exactly the original
place together with, for every loan `p` in `contains(region)`: `p` with
`after` appended when `p`'s type equals `origTy`, and `p` verbatim
otherwise. -/
theorem aliases_indirect_characterization
    (isDirect : Place → Bool) (decls : Nat → Option Ty)
    (loans : Region → List Place) (place ptr : Place) (after : List PlaceElem)
    (region : Region) (origTy : Ty) (mutbl : Bool)
    (hdir : isDirect place = false)
    (hlast : (refsInProjection place).getLast? = some (ptr, after))
    (hty : tyOf decls ptr = some (Ty.ref region origTy mutbl))
    (hwt : ∀ loan ∈ loans region, (tyOf decls loan).isSome = true) :
    (aliasesCompute isDirect decls loans place).isSome = true ∧
    ∀ q, q ∈ (aliasesCompute isDirect decls loans place).getD [] ↔
      (q = place ∨ ∃ loan ∈ loans region, ∃ lt, tyOf decls loan = some lt ∧
        q = (if lt = origTy then extendPlace loan after else loan)) := by
  obtain ⟨qs, hqs, hchar⟩ :=
    loanAliases_characterization decls origTy after (loans region) hwt
  have heq : aliasesCompute isDirect decls loans place = some (place :: qs) := by
    unfold aliasesCompute
    simp [hdir, hlast, hty, hqs]
  rw [heq]
  refine ⟨rfl, fun q => ?_⟩
  simp only [Option.getD_some, List.mem_cons]
  rw [hchar q]

/-- C9: the alias query cannot fail on the conservative paths: on a direct
place (one with no dereference of a non-argument pointer) it returns
exactly the singleton of the place, and on a place whose last dereferenced
pointer has a type outside the modeled reference vocabulary it likewise
returns the singleton rather than erroring. -/
theorem aliases_conservative_singleton (isDirect : Place → Bool)
    (decls : Nat → Option Ty) (loans : Region → List Place) (place : Place) :
    (isDirect place = true → aliasesCompute isDirect decls loans place = some [place]) ∧
    (∀ ptr after t, isDirect place = false →
      (refsInProjection place).getLast? = some (ptr, after) →
      tyOf decls ptr = some t → (∀ r pt m, t ≠ Ty.ref r pt m) →
      aliasesCompute isDirect decls loans place = some [place]) := by
  constructor
  · intro h
    simp [aliasesCompute, h]
  · intro ptr after t hdir hlast hty hnotref
    cases t with
    | unit => simp [aliasesCompute, hdir, hlast, hty]
    | base n => simp [aliasesCompute, hdir, hlast, hty]
    | adt n => simp [aliasesCompute, hdir, hlast, hty]
    | raw t2 => simp [aliasesCompute, hdir, hlast, hty]
    | ref r pt m => exact absurd rfl (hnotref r pt m)

/-- Witness for C9: a deref-free place yields its singleton, and a place
dereferencing a raw (non-reference) pointer also yields its singleton. -/
theorem aliases_conservative_singleton_witness :
    aliasesCompute isDirectEx declsEx loansEx ⟨3, []⟩ = some [⟨3, []⟩] ∧
    aliasesCompute isDirectEx declsEx loansEx ⟨7, [PlaceElem.deref]⟩
      = some [⟨7, [PlaceElem.deref]⟩] :=
  ⟨(aliases_conservative_singleton isDirectEx declsEx loansEx ⟨3, []⟩).1 (by decide),
   (aliases_conservative_singleton isDirectEx declsEx loansEx
      ⟨7, [PlaceElem.deref]⟩).2 ⟨7, []⟩ [] (Ty.raw (Ty.base 0)) (by decide) rfl rfl
      (fun r pt m h => Ty.noConfusion h)⟩

/-- Witness for C2: querying `*local2` (local 2 a reference with region 0
to unit) surfaces the unit-typed loan recorded under region 0. -/
theorem aliases_indirect_characterization_witness :
    (⟨6, []⟩ : Place) ∈
      (aliasesCompute isDirectEx declsEx loansEx ⟨2, [PlaceElem.deref]⟩).getD [] :=
  ((aliases_indirect_characterization isDirectEx declsEx loansEx
      ⟨2, [PlaceElem.deref]⟩ ⟨2, []⟩ [] 0 Ty.unit true
      (by decide) rfl rfl (by decide)).2 ⟨6, []⟩).mpr
    (Or.inr ⟨⟨6, []⟩, by decide, Ty.unit, rfl, by decide⟩)

/-- Whenever the alias computation succeeds, the queried place is a member
of the result. -/
theorem aliasesCompute_self_mem (isDirect : Place → Bool)
    (decls : Nat → Option Ty) (loans : Region → List Place) (place : Place)
    (res : List Place)
    (h : aliasesCompute isDirect decls loans place = some res) : place ∈ res := by
  by_cases hd : isDirect place
  · have heq : aliasesCompute isDirect decls loans place = some [place] := by
      simp [aliasesCompute, hd]
    rw [heq] at h
    injection h with h2
    rw [← h2]
    exact List.mem_singleton_self _
  · rw [Bool.not_eq_true] at hd
    cases hlast : (refsInProjection place).getLast? with
    | none =>
      have heq : aliasesCompute isDirect decls loans place = none := by
        simp [aliasesCompute, hd, hlast]
      rw [heq] at h
      cases h
    | some pa =>
      obtain ⟨ptr, after⟩ := pa
      cases hty : tyOf decls ptr with
      | none =>
        have heq : aliasesCompute isDirect decls loans place = none := by
          simp [aliasesCompute, hd, hlast, hty]
        rw [heq] at h
        cases h
      | some t =>
        cases t with
        | unit =>
          have heq : aliasesCompute isDirect decls loans place = some [place] := by
            simp [aliasesCompute, hd, hlast, hty]
          rw [heq] at h
          injection h with h2
          rw [← h2]
          exact List.mem_singleton_self _
        | base n =>
          have heq : aliasesCompute isDirect decls loans place = some [place] := by
            simp [aliasesCompute, hd, hlast, hty]
          rw [heq] at h
          injection h with h2
          rw [← h2]
          exact List.mem_singleton_self _
        | adt n =>
          have heq : aliasesCompute isDirect decls loans place = some [place] := by
            simp [aliasesCompute, hd, hlast, hty]
          rw [heq] at h
          injection h with h2
          rw [← h2]
          exact List.mem_singleton_self _
        | raw t2 =>
          have heq : aliasesCompute isDirect decls loans place = some [place] := by
            simp [aliasesCompute, hd, hlast, hty]
          rw [heq] at h
          injection h with h2
          rw [← h2]
          exact List.mem_singleton_self _
        | ref r pt m =>
          cases hla : loanAliases decls pt after (loans r) with
          | none =>
            have heq : aliasesCompute isDirect decls loans place = none := by
              simp [aliasesCompute, hd, hlast, hty, hla]
            rw [heq] at h
            cases h
          | some qs =>
            have heq : aliasesCompute isDirect decls loans place
                = some (place :: qs) := by
              simp [aliasesCompute, hd, hlast, hty, hla]
            rw [heq] at h
            injection h with h2
            rw [← h2]
            exact List.mem_cons_self _ _

/-- C3 (amended): reflexivity of aliasing holds whenever the query misses
the memoization cache (in particular on a fresh cache): the computed alias
set contains the queried place. -/
theorem aliases_cached_reflexivity_miss (normalize : Place → Place)
    (isDirect : Place → Bool) (decls : Nat → Option Ty)
    (loans : Region → List Place) (cache : List (Place × List Place))
    (place : Place) (cache2 : List (Place × List Place)) (res : List Place)
    (hmiss : cache.lookup (normalize place) = none)
    (hres : aliasesCached normalize isDirect decls loans cache place
      = (cache2, some res)) :
    place ∈ res := by
  unfold aliasesCached at hres
  rw [hmiss] at hres
  cases hc : aliasesCompute isDirect decls loans place with
  | none => rw [hc] at hres; simp at hres
  | some r =>
    rw [hc] at hres
    simp only [Prod.mk.injEq, Option.some.injEq] at hres
    rw [← hres.2]
    exact aliasesCompute_self_mem isDirect decls loans place r hc

/-- C3 counterexample: two unequal places with the same normalized form;
after querying the first, a query of the second is answered from the cache
with the set computed for the first, which does not contain the second
place — so `p ∈ aliases(p)` fails on a cache hit for a distinct place with
the same normalization. -/
theorem aliases_cached_reflexivity_cex :
    cexP1 ≠ cexP2 ∧ normalizeModel cexP1 = normalizeModel cexP2 ∧
    (aliasesCached normalizeModel cexDirect declsEx cexLoans
        (aliasesCached normalizeModel cexDirect declsEx cexLoans [] cexP1).1
        cexP2).2 = some [cexP1] ∧
    cexP2 ∉ [cexP1] := by decide

/-- Witness for C3 (amended) on a fresh cache. -/
theorem aliases_cached_reflexivity_miss_witness :
    cexP2 ∈ [cexP2] :=
  aliases_cached_reflexivity_miss normalizeModel cexDirect declsEx cexLoans []
    cexP2 [(normalizeModel cexP2, [cexP2])] [cexP2] rfl rfl

/-- A field projection never equals the unprojected place. -/
theorem projectField_ne (p : Place) (i : Nat) (t : Ty) : projectField p i t ≠ p := by
  intro h
  have h2 := congrArg (fun x => x.projection.length) h
  simp [projectField, extendPlace] at h2

/-- C7 (amended): an aggregate assignment with `n ≥ 1` fields is
destructured into exactly `n` `Definitely` records, the `i`-th mutating
`dst.field_i` with inputs the place read by the `i`-th operand (empty for
a literal operand), and none of them is a coarse record for `dst`. -/
theorem aggregate_destructure (structFields : Nat → Option (List Ty))
    (decls : Nat → Option Ty) (dst : Place) (kind : AggKind)
    (ops : List Operand) (tys : List Ty)
    (hk : aggFieldTys kind = some tys)
    (hlen : ops.length = tys.length) (hpos : 0 < tys.length) :
    (visitAssign structFields decls dst (Rvalue.aggregate kind ops)).length
        = tys.length ∧
    (∀ (i : Nat) (ty : Ty) (op : Operand), tys[i]? = some ty → ops[i]? = some op →
      (visitAssign structFields decls dst (Rvalue.aggregate kind ops))[i]? =
        some ({ mutated := projectField dst i ty,
                inputs := op.asPlace.toList,
                status := MutationStatus.definitely } : Mutation)) ∧
    (∀ m ∈ visitAssign structFields decls dst (Rvalue.aggregate kind ops),
      m.mutated ≠ dst) := by
  have hv : visitAssign structFields decls dst (Rvalue.aggregate kind ops)
      = (tys.enum.zip ops).map (fun x =>
          { mutated := projectField dst x.1.1 x.1.2,
            inputs := x.2.asPlace.toList,
            status := MutationStatus.definitely }) := by
    simp [visitAssign, hk, hpos]
  refine ⟨?_, ?_, ?_⟩
  · rw [hv]
    simp [List.length_zip, List.enum_length, hlen]
  · intro i ty op hty hop
    rw [hv]
    rw [List.getElem?_map]
    have hz : (tys.enum.zip ops)[i]? = some ((i, ty), op) := by
      rw [List.getElem?_zip_eq_some]
      refine ⟨?_, hop⟩
      rw [List.getElem?_enum, hty]
      rfl
    rw [hz]
    rfl
  · intro m hm
    rw [hv] at hm
    simp only [List.mem_map] at hm
    obtain ⟨x, _, rfl⟩ := hm
    exact projectField_ne dst x.1.1 x.1.2

/-- C7 counterexample: an aggregate with zero fields (e.g. a unit-struct
or empty-tuple construction) is not destructured into zero records;
instead the visitor emits a single coarse `Definitely` record for the
whole destination, which the claim forbids. -/
theorem aggregate_destructure_cex :
    visitAssign (fun _ => none) declsEx ⟨4, []⟩
        (Rvalue.aggregate (AggKind.tuple []) [])
      = [{ mutated := ⟨4, []⟩, inputs := [],
           status := MutationStatus.definitely }] ∧
    (visitAssign (fun _ => none) declsEx ⟨4, []⟩
        (Rvalue.aggregate (AggKind.tuple []) [])).length ≠ 0 := by decide

/-- Witness for C7 (amended) on `x = Point { x: 1, y: 2 }`: exactly two
`Definitely` records, one per field, with empty inputs. -/
theorem aggregate_destructure_witness :
    (visitAssign (fun _ => none) declsEx ⟨4, []⟩
        (Rvalue.aggregate (AggKind.adt [Ty.base 0, Ty.base 1])
          [Operand.const, Operand.const])).length = 2 ∧
    (visitAssign (fun _ => none) declsEx ⟨4, []⟩
        (Rvalue.aggregate (AggKind.adt [Ty.base 0, Ty.base 1])
          [Operand.const, Operand.const]))[0]? =
      some { mutated := projectField ⟨4, []⟩ 0 (Ty.base 0), inputs := [],
             status := MutationStatus.definitely } ∧
    (visitAssign (fun _ => none) declsEx ⟨4, []⟩
        (Rvalue.aggregate (AggKind.adt [Ty.base 0, Ty.base 1])
          [Operand.const, Operand.const]))[1]? =
      some { mutated := projectField ⟨4, []⟩ 1 (Ty.base 1), inputs := [],
             status := MutationStatus.definitely } :=
  ⟨(aggregate_destructure (fun _ => none) declsEx ⟨4, []⟩
      (AggKind.adt [Ty.base 0, Ty.base 1]) [Operand.const, Operand.const]
      [Ty.base 0, Ty.base 1] rfl rfl (by decide)).1,
   (aggregate_destructure (fun _ => none) declsEx ⟨4, []⟩
      (AggKind.adt [Ty.base 0, Ty.base 1]) [Operand.const, Operand.const]
      [Ty.base 0, Ty.base 1] rfl rfl (by decide)).2.1 0 (Ty.base 0)
      Operand.const rfl rfl,
   (aggregate_destructure (fun _ => none) declsEx ⟨4, []⟩
      (AggKind.adt [Ty.base 0, Ty.base 1]) [Operand.const, Operand.const]
      [Ty.base 0, Ty.base 1] rfl rfl (by decide)).2.1 1 (Ty.base 1)
      Operand.const rfl rfl⟩

/-- Every record produced by `possiblyMutations` has status `Possibly` and
inputs the full argument-place list. -/
theorem possiblyMutations_mem (reachableMut : Place → List Place)
    (argPlaces : List Place) (m : Mutation)
    (hm : m ∈ possiblyMutations reachableMut argPlaces) :
    m.inputs = argPlaces ∧ m.status = MutationStatus.possibly := by
  simp only [possiblyMutations, List.mem_flatMap, List.mem_map] at hm
  obtain ⟨arg, _, am, _, rfl⟩ := hm
  exact ⟨rfl, rfl⟩

/-- C8: a call emits exactly one `Definitely` record; it mutates the
call's destination, with inputs all (non-filtered) argument places unless
the destination type is unit, in which case the inputs are empty. -/
theorem call_destination_record (decls : Nat → Option Ty)
    (ignore : Place → Bool) (reachableMut : Place → List Place)
    (args : List Place) (destination : Place) (t : Ty)
    (ht : tyOf decls destination = some t) :
    (visitCallTerminator decls ignore reachableMut args destination).filter
        (fun m => decide (m.status = MutationStatus.definitely))
      = [{ mutated := destination,
           inputs := if t = Ty.unit then [] else filteredArgs ignore args,
           status := MutationStatus.definitely }] := by
  unfold visitCallTerminator
  rw [List.filter_cons]
  have hhead : (decide ((MutationStatus.definitely : MutationStatus)
      = MutationStatus.definitely)) = true := rfl
  rw [hhead, if_pos rfl]
  have htail : (possiblyMutations reachableMut (filteredArgs ignore args)).filter
      (fun m => decide (m.status = MutationStatus.definitely)) = [] := by
    rw [List.filter_eq_nil_iff]
    intro m hm
    have h2 := (possiblyMutations_mem _ _ m hm).2
    simp [h2]
  rw [htail]
  simp only [ht, Option.some.injEq]

/-- Witness for C8: a call with unit destination produces exactly the one
`Definitely` record for the destination, with empty inputs. -/
theorem call_destination_record_witness :
    (visitCallTerminator declsEx (fun _ => false) (fun _ => [])
        [⟨4, []⟩] ⟨3, []⟩).filter
        (fun m => decide (m.status = MutationStatus.definitely))
      = [{ mutated := ⟨3, []⟩, inputs := [],
           status := MutationStatus.definitely }] :=
  call_destination_record declsEx (fun _ => false) (fun _ => [])
    [⟨4, []⟩] ⟨3, []⟩ Ty.unit rfl

/-- On a duplicate-free list, counting elements equal to `q` is the
membership indicator. -/
theorem countP_eq_mem_indicator (q : Place) (l : List Place) (hnd : l.Nodup) :
    l.countP (fun am => decide (am = q)) = if q ∈ l then 1 else 0 := by
  induction l with
  | nil => simp
  | cons x rest ih =>
    rw [List.nodup_cons] at hnd
    rw [List.countP_cons, ih hnd.2]
    by_cases hx : x = q
    · subst hx
      simp [hnd.1]
    · have hqx : ¬ q = x := fun h => hx h.symm
      simp [hx, hqx, List.mem_cons]

/-- Counting places equal to `q` and different from `a` on a
duplicate-free list. -/
theorem countP_eq_ne_indicator (q a : Place) (l : List Place) (hnd : l.Nodup) :
    l.countP (fun am => decide (am = q) && decide (am ≠ a))
      = if q ∈ l ∧ q ≠ a then 1 else 0 := by
  by_cases hqa : q = a
  · subst hqa
    have hz : l.countP (fun am => decide (am = q) && decide (am ≠ q)) = 0 := by
      rw [List.countP_eq_zero]
      intro x _
      simp only [Bool.and_eq_true, decide_eq_true_eq]
      rintro ⟨rfl, h2⟩
      exact h2 rfl
    rw [hz]
    simp
  · have hc : l.countP (fun am => decide (am = q) && decide (am ≠ a))
        = l.countP (fun am => decide (am = q)) := by
      apply List.countP_congr
      intro x _
      simp only [Bool.and_eq_true, decide_eq_true_eq]
      constructor
      · exact fun h => h.1
      · rintro rfl
        exact ⟨rfl, hqa⟩
    rw [hc, countP_eq_mem_indicator q l hnd]
    by_cases hq : q ∈ l
    · simp [hq, hqa]
    · simp [hq]

/-- The count, per mutated place, of the records emitted by
`possiblyMutations`: one per (argument, reachable place) pair with the
place different from the argument. -/
theorem possiblyMutations_count (reachableMut : Place → List Place)
    (inputsList : List Place) (iter : List Place) (q : Place)
    (hnd : ∀ arg, (reachableMut arg).Nodup) :
    (iter.flatMap (fun arg =>
        ((reachableMut arg).filter (fun am => decide (am ≠ arg))).map (fun am =>
          ({ mutated := am, inputs := inputsList,
             status := MutationStatus.possibly } : Mutation)))).countP
        (fun m => decide (m.mutated = q))
      = iter.countP (fun arg => decide (q ∈ reachableMut arg ∧ q ≠ arg)) := by
  induction iter with
  | nil => simp
  | cons a rest ih =>
    rw [List.flatMap_cons, List.countP_append, List.countP_cons, ih]
    have hseg2 : (((reachableMut a).filter (fun am => decide (am ≠ a))).map
        (fun am => ({ mutated := am, inputs := inputsList,
                      status := MutationStatus.possibly } : Mutation))).countP
        (fun m => decide (m.mutated = q))
        = if q ∈ reachableMut a ∧ q ≠ a then 1 else 0 := by
      rw [List.countP_map]
      have hseg : ((fun m => decide (m.mutated = q)) ∘ (fun am =>
          ({ mutated := am, inputs := inputsList,
             status := MutationStatus.possibly } : Mutation)))
          = fun am => decide (am = q) := rfl
      rw [hseg, List.countP_filter, countP_eq_ne_indicator q a _ (hnd a)]
    rw [hseg2]
    have hdec : (if decide (q ∈ reachableMut a ∧ q ≠ a) = true then 1 else 0)
        = (if q ∈ reachableMut a ∧ q ≠ a then 1 else 0) := by
      by_cases h : q ∈ reachableMut a ∧ q ≠ a <;> simp [h]
    rw [hdec]
    omega

/-- C4: for a call, the `Possibly` records are exactly one per (argument
place, reachable place) pair with the reachable place different from that
argument — so an argument never appears as the mutated place of its own
records — and every `Possibly` record carries all argument places as
inputs. -/
theorem call_possibly_records (decls : Nat → Option Ty)
    (ignore : Place → Bool) (reachableMut : Place → List Place)
    (args : List Place) (destination : Place)
    (hnd : ∀ arg, (reachableMut arg).Nodup) :
    (∀ m ∈ visitCallTerminator decls ignore reachableMut args destination,
      m.status = MutationStatus.possibly → m.inputs = filteredArgs ignore args) ∧
    (∀ q : Place,
      ((visitCallTerminator decls ignore reachableMut args destination).filter
          (fun m => decide (m.status = MutationStatus.possibly))).countP
          (fun m => decide (m.mutated = q))
        = (filteredArgs ignore args).countP
            (fun arg => decide (q ∈ reachableMut arg ∧ q ≠ arg))) := by
  constructor
  · intro m hm hp
    rw [visitCallTerminator, List.mem_cons] at hm
    rcases hm with rfl | hm
    · cases hp
    · exact (possiblyMutations_mem _ _ m hm).1
  · intro q
    have hfil : (visitCallTerminator decls ignore reachableMut args
        destination).filter (fun m => decide (m.status = MutationStatus.possibly))
        = possiblyMutations reachableMut (filteredArgs ignore args) := by
      rw [visitCallTerminator, List.filter_cons]
      simp only [decide_eq_true_eq]
      rw [if_neg (by intro h; cases h)]
      rw [List.filter_eq_self]
      intro m hm
      simp [(possiblyMutations_mem _ _ m hm).2]
    rw [hfil]
    exact possiblyMutations_count reachableMut _ _ q hnd

/-- Witness for C4: one argument whose reachable set holds itself and one
other place — exactly one `Possibly` record, for the other place. -/
theorem call_possibly_records_witness :
    ((visitCallTerminator declsEx (fun _ => false)
        (fun _ => [⟨4, []⟩, ⟨5, []⟩]) [⟨4, []⟩] ⟨3, []⟩).filter
        (fun m => decide (m.status = MutationStatus.possibly))).countP
        (fun m => decide (m.mutated = (⟨5, []⟩ : Place)))
      = (filteredArgs (fun _ => false) [⟨4, []⟩]).countP
          (fun arg => decide ((⟨5, []⟩ : Place) ∈ [(⟨4, []⟩ : Place), ⟨5, []⟩]
            ∧ (⟨5, []⟩ : Place) ≠ arg)) := by
  exact (call_possibly_records declsEx (fun _ => false)
    (fun _ => [⟨4, []⟩, ⟨5, []⟩]) [⟨4, []⟩] ⟨3, []⟩
    (fun _ => (by decide : ([(⟨4, []⟩ : Place), ⟨5, []⟩] : List Place).Nodup))).2
    ⟨5, []⟩

/-- An insertion that reports no change found the element present and left
the list unchanged. -/
theorem insertNew_false (l : List Place) (p : Place)
    (h : (insertNew l p).2 = false) : p ∈ l ∧ (insertNew l p).1 = l := by
  unfold insertNew at h ⊢
  by_cases hp : p ∈ l
  · simp [hp]
  · simp [hp] at h

/-- If inserting the transforms of a snapshot reports no change, the
incoming flag was false, the list is unchanged, and every transform was
already present. -/
theorem insertAll_false (subset : Region → Region → Bool)
    (definite : Region → Option (Ty × List PlaceElem))
    (decls : Nat → Option Ty) (a b : Region) (snap l : List Place) (ch : Bool)
    (h : (insertAll subset definite decls a b snap l ch).2 = false) :
    ch = false ∧ (insertAll subset definite decls a b snap l ch).1 = l ∧
    ∀ p ∈ snap, transform subset definite decls a b p ∈ l := by
  induction snap generalizing l ch with
  | nil =>
    refine ⟨h, rfl, ?_⟩
    intro p hp
    cases hp
  | cons p rest ih =>
    have h2 := ih (insertNew l (transform subset definite decls a b p)).1
      (ch || (insertNew l (transform subset definite decls a b p)).2) h
    obtain ⟨hor, hres, hall⟩ := h2
    obtain ⟨hch, hnew⟩ := Bool.or_eq_false_iff.mp hor
    obtain ⟨hmem, hkeep⟩ := insertNew_false l _ hnew
    refine ⟨hch, ?_, ?_⟩
    · rw [insertAll, hres, hkeep]
    · intro p2 hp2
      rcases List.mem_cons.mp hp2 with rfl | hp2
      · exact hmem
      · have := hall p2 hp2
        rwa [hkeep] at this

/-- If processing one subset edge reports no change, the incoming flag was
false, the map is unchanged, and the transform of every place of
`contains(a)` is already in `contains(b)`. -/
theorem edgeStep_false (subset : Region → Region → Bool)
    (definite : Region → Option (Ty × List PlaceElem))
    (decls : Nat → Option Ty) (c : Contains) (ch : Bool) (a b : Region)
    (h : (edgeStep subset definite decls c ch a b).2 = false) :
    ch = false ∧ (edgeStep subset definite decls c ch a b).1 = c ∧
    ∀ p ∈ c a, transform subset definite decls a b p ∈ c b := by
  unfold edgeStep at h ⊢
  obtain ⟨hch, hia⟩ := Bool.or_eq_false_iff.mp h
  obtain ⟨-, h1, h3⟩ := insertAll_false subset definite decls a b (c a) (c b)
    false hia
  refine ⟨hch, ?_, h3⟩
  rw [h1]
  funext r
  unfold updateC
  by_cases hr : r = b <;> simp [hr]

/-- If processing all successors of `a` reports no change, the incoming
flag was false, the map is unchanged, and every edge out of `a` was
already saturated. -/
theorem edgesPass_false (subset : Region → Region → Bool)
    (definite : Region → Option (Ty × List PlaceElem))
    (decls : Nat → Option Ty) (a : Region) (bs : List Region)
    (acc : Contains × Bool)
    (h : (edgesPass subset definite decls a bs acc).2 = false) :
    acc.2 = false ∧ (edgesPass subset definite decls a bs acc).1 = acc.1 ∧
    ∀ b ∈ bs, ∀ p ∈ acc.1 a, transform subset definite decls a b p ∈ acc.1 b := by
  induction bs generalizing acc with
  | nil =>
    refine ⟨h, rfl, ?_⟩
    intro b hb
    cases hb
  | cons b rest ih =>
    have h2 := ih (edgeStep subset definite decls acc.1 acc.2 a b) h
    obtain ⟨hes, hres, hcl⟩ := h2
    obtain ⟨hacc, heq, hedge⟩ := edgeStep_false subset definite decls acc.1
      acc.2 a b hes
    refine ⟨hacc, ?_, ?_⟩
    · rw [edgesPass, hres, heq]
    · intro b2 hb2 p hp
      rcases List.mem_cons.mp hb2 with rfl | hb2
      · exact hedge p hp
      · have := hcl b2 hb2 p (by rw [heq]; exact hp)
        rwa [heq] at this

/-- If a whole pass over the SCC's regions reports no change, the map is
unchanged and every edge out of every region of the SCC is saturated. -/
theorem sccPass_false (subset : Region → Region → Bool)
    (definite : Region → Option (Ty × List PlaceElem))
    (decls : Nat → Option Ty) (succs : Region → List Region)
    (as : List Region) (acc : Contains × Bool)
    (h : (sccPass subset definite decls succs as acc).2 = false) :
    acc.2 = false ∧ (sccPass subset definite decls succs as acc).1 = acc.1 ∧
    ∀ a ∈ as, ∀ b ∈ succs a, ∀ p ∈ acc.1 a,
      transform subset definite decls a b p ∈ acc.1 b := by
  induction as generalizing acc with
  | nil =>
    refine ⟨h, rfl, ?_⟩
    intro a ha
    cases ha
  | cons a rest ih =>
    have h2 := ih (edgesPass subset definite decls a (succs a) acc) h
    obtain ⟨hep, hres, hcl⟩ := h2
    obtain ⟨hacc, heq, hedges⟩ := edgesPass_false subset definite decls a
      (succs a) acc hep
    refine ⟨hacc, ?_, ?_⟩
    · rw [sccPass, hres, heq]
    · intro a2 ha2 b hb p hp
      rcases List.mem_cons.mp ha2 with rfl | ha2
      · exact hedges b hb p hp
      · have := hcl a2 ha2 b hb p (by rw [heq]; exact hp)
        rwa [heq] at this

/-- C1: when the per-SCC loop of the contains-fixpoint converges (run for
each SCC in topological order), the resulting map is stable — one more
pass changes nothing — and closed under the propagation rule: for every
subset edge `a ⊆ b` with `a` in the SCC and every place `p` in
`contains(a)`, the insertion into `contains(b)` is `p` extended by the
definite projection recorded for `b` exactly when `b` is not also a
subset-predecessor of `a` and the definite record's pointee type equals
`p`'s static type, and `p` unchanged otherwise. -/
theorem scc_fixpoint_characterization (subset : Region → Region → Bool)
    (definite : Region → Option (Ty × List PlaceElem)) (decls : Nat → Option Ty)
    (succs : Region → List Region) (sccRegions : List Region) (fuel : Nat)
    (c cF : Contains)
    (hfix : sccFix subset definite decls succs sccRegions fuel c = some cF) :
    (sccPass subset definite decls succs sccRegions (cF, false) = (cF, false)) ∧
    (∀ a ∈ sccRegions, ∀ b ∈ succs a, ∀ p ∈ cF a,
      transform subset definite decls a b p ∈ cF b) ∧
    (∀ (a b : Region) (p : Place) (ty : Ty) (proj : List PlaceElem),
      definite b = some (ty, proj) →
        ((subset b a = false ∧ tyOf decls p = some ty →
            transform subset definite decls a b p = extendPlace p proj) ∧
         (¬ (subset b a = false ∧ tyOf decls p = some ty) →
            transform subset definite decls a b p = p))) ∧
    (∀ (a b : Region) (p : Place), definite b = none →
      transform subset definite decls a b p = p) := by
  have htrans : ∀ (a b : Region) (p : Place) (ty : Ty) (proj : List PlaceElem),
      definite b = some (ty, proj) →
        ((subset b a = false ∧ tyOf decls p = some ty →
            transform subset definite decls a b p = extendPlace p proj) ∧
         (¬ (subset b a = false ∧ tyOf decls p = some ty) →
            transform subset definite decls a b p = p)) := by
    intro a b p ty proj hdef
    constructor
    · intro hcond
      unfold transform
      rw [hdef]
      show (if subset b a = false ∧ tyOf decls p = some ty
          then extendPlace p proj else p) = extendPlace p proj
      rw [if_pos hcond]
    · intro hncond
      unfold transform
      rw [hdef]
      show (if subset b a = false ∧ tyOf decls p = some ty
          then extendPlace p proj else p) = p
      rw [if_neg hncond]
  have htransn : ∀ (a b : Region) (p : Place), definite b = none →
      transform subset definite decls a b p = p := by
    intro a b p hdef
    unfold transform
    rw [hdef]
  induction fuel generalizing c with
  | zero => cases hfix
  | succ n ih =>
    unfold sccFix at hfix
    rcases hsp : sccPass subset definite decls succs sccRegions (c, false)
      with ⟨c2, flag⟩
    rw [hsp] at hfix
    cases flag with
    | true => exact ih c2 hfix
    | false =>
      have hfix2 : some c2 = some cF := hfix
      injection hfix2 with hc2
      have hflag : (sccPass subset definite decls succs sccRegions
          (c, false)).2 = false := by rw [hsp]
      obtain ⟨-, heq, hcl⟩ := sccPass_false subset definite decls succs
        sccRegions (c, false) hflag
      have hceq : c2 = c := by
        have := heq
        rw [hsp] at this
        exact this
      subst hc2
      rw [hceq]
      refine ⟨?_, ?_, htrans, htransn⟩
      · rw [hsp, hceq]
      · exact hcl

/-- Witness for C1: on the one-edge instance the loop converges in two
passes, and the place of region 1 appears in region 2 extended by the
definite projection. -/
theorem scc_fixpoint_characterization_witness :
    (⟨5, [PlaceElem.field 0 (Ty.base 1)]⟩ : Place) ∈
      ((sccFix subsetEx definiteEx declsEx succsEx [1] 2 c0Ex).getD
        (fun _ => [])) 2 :=
  (scc_fixpoint_characterization subsetEx definiteEx declsEx succsEx [1] 2
    c0Ex _ rfl).2.1 1 (by decide) 2 (by decide) ⟨5, []⟩ (by decide)

end Flowistry
